import Mathlib

/-!
Verification of the `lru_cache` repository against its specification.

The cache (`src/cache.rs`) is modelled shallowly: the Rust `HashMap<K, Element<V>>`
becomes an association list `List (K × Element V)` whose well-formedness
(pairwise-distinct keys) mirrors the map's key uniqueness, `usize` counters become
`Nat`, and the fallible file system becomes an explicit `Option` of file contents.
Rust strings are modelled as `List Char` so that line splitting and the `key:value`
format of `src/persistence.rs` are fully executable.  `HashMap::get_mut` updates in
place (`updateAssoc`), `HashMap::remove` drops the unique binding (`removeKey`),
`Iterator::min_by_key` keeps the first minimum in iteration order (`minByIndex`),
and `sort_by_key` (a stable sort) is modelled by `List.insertionSort`, which is
stable for the `≤` relation on indices.
-/

namespace LruCache

/-- Rust `String` / `&str`, modelled as its list of characters. -/
abbrev Str := List Char

/-- `Element<V>` from `src/cache.rs`: a stored value together with its LRU index. -/
structure Element (V : Type) where
  index : Nat
  value : V
  deriving DecidableEq

/-- `Cache<K, V>` from `src/cache.rs`: bindings, capacity (`size`), and the global
monotone counter `max_index`. -/
structure Cache (K V : Type) where
  elements : List (K × Element V)
  size : Nat
  max_index : Nat
  deriving DecidableEq

variable {K V : Type} [DecidableEq K]

/-- `HashMap::get` on the association list: value of the first binding of `k`. -/
def findElt : List (K × Element V) → K → Option (Element V)
  | [], _ => none
  | (k', e) :: rest, k => if k = k' then some e else findElt rest k

/-- In-place update through `HashMap::get_mut`: replace the element bound to `k`
(at its position), leaving the list unchanged when `k` is absent. -/
def updateAssoc : List (K × Element V) → K → Element V → List (K × Element V)
  | [], _, _ => []
  | (k', e') :: rest, k, e =>
    if k = k' then (k', e) :: rest else (k', e') :: updateAssoc rest k e

/-- `HashMap::remove`: drop the first (in a well-formed map, the only) binding of `k`. -/
def removeKey : List (K × Element V) → K → List (K × Element V)
  | [], _ => []
  | (k', e') :: rest, k => if k = k' then rest else (k', e') :: removeKey rest k

/-- `self.elements.iter().min_by_key(|(_, elt)| elt.index)`: the first entry of
minimum index in iteration order, `none` on the empty map. -/
def minByIndex : List (K × Element V) → Option (K × Element V)
  | [] => none
  | p :: rest => some (rest.foldl (fun acc q => if q.2.index < acc.2.index then q else acc) p)

/-- `Cache::new(size)`. -/
def Cache.new (size : Nat) : Cache K V :=
  ⟨[], size, 0⟩

/-- The eviction block inside `Cache::put`'s absent-key branch: when
`len >= size`, remove the entry found by the `min_by_key` scan (nothing is
removed when the scan comes back empty). -/
def evictIfFull (c : Cache K V) : List (K × Element V) :=
  if c.elements.length ≥ c.size then
    match minByIndex c.elements with
    | some (oldest_key, _) => removeKey c.elements oldest_key
    | none => c.elements
  else c.elements

/-- `Cache::put` from `src/cache.rs`.  Returns the Rust return value paired with
the updated cache.  Present key: capture the old value, overwrite, bump
`max_index`, restamp the entry.  Absent key: run the eviction block, then
insert with the bumped `max_index`. -/
def Cache.put (c : Cache K V) (key : K) (value : V) : Option V × Cache K V :=
  match findElt c.elements key with
  | some elt =>
    (some elt.value,
      ⟨updateAssoc c.elements key ⟨c.max_index + 1, value⟩, c.size, c.max_index + 1⟩)
  | none =>
    (none, ⟨evictIfFull c ++ [(key, ⟨c.max_index + 1, value⟩)], c.size, c.max_index + 1⟩)

/-- `Cache::get` from `src/cache.rs`: on a hit, bump `max_index`, restamp the
entry and return its (unchanged) value; on a miss return `None` and leave the
cache untouched. -/
def Cache.get (c : Cache K V) (key : K) : Option V × Cache K V :=
  match findElt c.elements key with
  | some elt =>
    (some elt.value,
      ⟨updateAssoc c.elements key ⟨c.max_index + 1, elt.value⟩, c.size, c.max_index + 1⟩)
  | none => (none, c)

/-- `Cache::get_elt` (peek) from `src/cache.rs`: read the full entry without
mutating anything. -/
def Cache.get_elt (c : Cache K V) (key : K) : Option (Element V) :=
  findElt c.elements key

/-- One client operation on the cache, for stating reachability invariants. -/
inductive Op (K V : Type) where
  | getOp (k : K)
  | putOp (k : K) (v : V)
  | peekOp (k : K)

/-- State transition of one operation (`get_elt` does not mutate). -/
def applyOp (c : Cache K V) : Op K V → Cache K V
  | .getOp k => (c.get k).2
  | .putOp k v => (c.put k v).2
  | .peekOp _ => c

/-- Run a sequence of operations from a freshly constructed cache. -/
def runOps (size : Nat) (ops : List (Op K V)) : Cache K V :=
  ops.foldl applyOp (Cache.new size)

/-- Structural invariant of reachable caches: distinct keys (the `HashMap`
guarantee), pairwise-distinct indices, all indices bounded by `max_index`, and
the entry count bounded by `max size 1` (capacity 0 still admits one entry). -/
def Wf (c : Cache K V) : Prop :=
  c.elements.Pairwise (fun p q => p.1 ≠ q.1) ∧
  c.elements.Pairwise (fun p q => p.2.index ≠ q.2.index) ∧
  (∀ p ∈ c.elements, p.2.index ≤ c.max_index) ∧
  c.elements.length ≤ max c.size 1

/-- `str::split_once(':')` and friends: split at the first occurrence of `sep`. -/
def splitOnce (sep : Char) : Str → Option (Str × Str)
  | [] => none
  | c :: rest =>
    if c = sep then some ([], rest)
    else
      match splitOnce sep rest with
      | some (a, b) => some (c :: a, b)
      | none => none

/-- `str::lines`: lines end at `'\n'` or at `'\r'` immediately followed by
`'\n'` (the carriage return is then stripped); a final line without a
terminator is kept as is, including any trailing `'\r'`; a trailing line
terminator produces no extra empty line. -/
def splitLines : Str → List Str
  | [] => []
  | [c] => if c = '\n' then [[]] else [[c]]
  | c :: c' :: rest =>
    if c = '\n' then [] :: splitLines (c' :: rest)
    else if c = '\r' ∧ c' = '\n' then [] :: splitLines rest
    else
      match splitLines (c' :: rest) with
      | [] => [[c]]
      | l :: ls => (c :: l) :: ls

/-- `Vec::join("\n")` on a list of lines. -/
def joinLines : List Str → Str
  | [] => []
  | [l] => l
  | l :: l' :: ls => l ++ '\n' :: joinLines (l' :: ls)

/-- Body of the per-line loop of `FilePersistence::read_file`: split the line at
the first colon and feed the pair through `put` (the `String` parser is the
identity and never fails), skipping delimiter-free lines. -/
def parseLine (c : Cache Str Str) (line : Str) : Cache Str Str :=
  match splitOnce ':' line with
  | some (k, v) => (c.put k v).2
  | none => c

/-- `FilePersistence::read_file`, success branch, on the file contents: keep the
last `size` lines when there are more, then fold `parseLine` over them starting
from `Cache::new(size)`. -/
def readFileContent (size : Nat) (content : Str) : Cache Str Str :=
  let ls := splitLines content
  let kept := if ls.length > size then ls.drop (ls.length - size) else ls
  kept.foldl parseLine (Cache.new size)

/-- `FilePersistence::read_file` with the file system made explicit: the input
`Option Str` is the readable content of the location (`none` = absent or
unreadable), the output `Option Str` is the content of the location afterwards
(the error branch runs `File::create`, leaving an empty file). -/
def read_file (size : Nat) (file : Option Str) : Cache Str Str × Option Str :=
  match file with
  | some content => (readFileContent size content, some content)
  | none => (Cache.new size, some [])

/-- The stable sort by ascending index used by `FilePersistence::write_file`
(`sort_by_key(|(_, elt)| elt.index)`). -/
def sortByIndex (es : List (Str × Element Str)) : List (Str × Element Str) :=
  List.insertionSort (fun p q => p.2.index ≤ q.2.index) es

/-- One line `key:value` of the file format. -/
def encodeEntry (p : Str × Element Str) : Str :=
  p.1 ++ ':' :: p.2.value

/-- `FilePersistence::write_file`, as the text it writes: entries sorted by
ascending index, each rendered `key:value`, joined by newlines. -/
def write_file (c : Cache Str Str) : Str :=
  joinLines ((sortByIndex c.elements).map encodeEntry)

/-- Encode a list of raw key/value pairs as a file, one `key:value` line each
(used to state claims about `read_file` on a given file). -/
def encodePairs (ps : List (Str × Str)) : Str :=
  joinLines (ps.map fun p => p.1 ++ ':' :: p.2)

/-- Renumber raw pairs into entries with consecutive indices `m+1, m+2, ...`,
as produced by `put`-ing them in order into a cache with `max_index = m`. -/
def numberFrom (m : Nat) : List (K × V) → List (K × Element V)
  | [] => []
  | (k, v) :: ps => (k, ⟨m + 1, v⟩) :: numberFrom (m + 1) ps

/-- Fold `put` over a list of pairs. -/
def putAll (c : Cache K V) (ps : List (K × V)) : Cache K V :=
  ps.foldl (fun c p => (c.put p.1 p.2).2) c

theorem findElt_eq_none_iff {es : List (K × Element V)} {k : K} :
    findElt es k = none ↔ k ∉ es.map Prod.fst := by
  induction es with
  | nil => simp [findElt]
  | cons p rest ih =>
    obtain ⟨k', e'⟩ := p
    by_cases hk : k = k'
    · simp [findElt, hk]
    · simp [findElt, hk, ih]

theorem findElt_isSome_of_mem {es : List (K × Element V)} {k : K}
    (h : k ∈ es.map Prod.fst) : ∃ e, findElt es k = some e := by
  cases hf : findElt es k with
  | none => exact absurd h (findElt_eq_none_iff.1 hf)
  | some e => exact ⟨e, rfl⟩

theorem findElt_append (es es' : List (K × Element V)) (k : K) :
    findElt (es ++ es') k =
      match findElt es k with
      | some e => some e
      | none => findElt es' k := by
  induction es with
  | nil => simp [findElt]
  | cons p rest ih =>
    obtain ⟨k', e'⟩ := p
    by_cases hk : k = k'
    · simp [findElt, hk]
    · simp [findElt, hk, ih]

theorem updateAssoc_map_fst (es : List (K × Element V)) (k : K) (e : Element V) :
    (updateAssoc es k e).map Prod.fst = es.map Prod.fst := by
  induction es with
  | nil => rfl
  | cons p rest ih =>
    obtain ⟨k', e'⟩ := p
    by_cases hk : k = k'
    · simp [updateAssoc, hk]
    · simp [updateAssoc, hk, ih]

theorem mem_updateAssoc {es : List (K × Element V)} {k : K} {e : Element V}
    {q : K × Element V} (h : q ∈ updateAssoc es k e) : q ∈ es ∨ q.2 = e := by
  induction es with
  | nil => simp [updateAssoc] at h
  | cons p rest ih =>
    obtain ⟨k', e'⟩ := p
    by_cases hk : k = k'
    · simp only [updateAssoc, if_pos hk] at h
      rcases List.mem_cons.1 h with h' | h'
      · right
        rw [h']
      · left
        exact List.mem_cons_of_mem _ h'
    · simp only [updateAssoc, if_neg hk] at h
      rcases List.mem_cons.1 h with h' | h'
      · left
        rw [h']
        exact List.mem_cons_self _ _
      · rcases ih h' with h'' | h''
        · left
          exact List.mem_cons_of_mem _ h''
        · right
          exact h''

theorem updateAssoc_pairwise_index {es : List (K × Element V)} {m : Nat} {k : K}
    {e : Element V}
    (hidx : es.Pairwise fun p q => p.2.index ≠ q.2.index)
    (hbound : ∀ p ∈ es, p.2.index ≤ m) (he : e.index = m + 1) :
    (updateAssoc es k e).Pairwise fun p q => p.2.index ≠ q.2.index := by
  induction es with
  | nil => simp [updateAssoc]
  | cons p rest ih =>
    obtain ⟨k', e'⟩ := p
    rw [List.pairwise_cons] at hidx
    obtain ⟨hhead, htail⟩ := hidx
    by_cases hk : k = k'
    · simp only [updateAssoc, if_pos hk]
      rw [List.pairwise_cons]
      refine ⟨?_, htail⟩
      intro q hq
      have hqb := hbound q (List.mem_cons_of_mem _ hq)
      show e.index ≠ q.2.index
      rw [he]
      omega
    · simp only [updateAssoc, if_neg hk]
      rw [List.pairwise_cons]
      constructor
      · intro q hq
        rcases mem_updateAssoc hq with h' | h'
        · exact hhead q h'
        · have hb : e'.index ≤ m := hbound (k', e') (List.mem_cons_self _ _)
          rw [h', he]
          show e'.index ≠ m + 1
          omega
      · exact ih htail fun p hp => hbound p (List.mem_cons_of_mem _ hp)

theorem removeKey_sublist (es : List (K × Element V)) (k : K) :
    (removeKey es k).Sublist es := by
  induction es with
  | nil => simp [removeKey]
  | cons p rest ih =>
    obtain ⟨k', e'⟩ := p
    by_cases hk : k = k'
    · simp only [removeKey, if_pos hk]
      exact List.sublist_cons_self _ _
    · simp only [removeKey, if_neg hk]
      exact List.Sublist.cons₂ _ ih

theorem removeKey_length {es : List (K × Element V)} {k : K}
    (h : k ∈ es.map Prod.fst) : (removeKey es k).length + 1 = es.length := by
  induction es with
  | nil => simp at h
  | cons p rest ih =>
    obtain ⟨k', e'⟩ := p
    by_cases hk : k = k'
    · simp [removeKey, hk]
    · simp only [List.map_cons, List.mem_cons] at h
      rcases h with h | h
      · exact absurd h hk
      · simp [removeKey, hk, ih h]

theorem findElt_removeKey_ne {es : List (K × Element V)} {k k' : K} (h : k' ≠ k) :
    findElt (removeKey es k) k' = findElt es k' := by
  induction es with
  | nil => simp [removeKey]
  | cons p rest ih =>
    obtain ⟨k'', e''⟩ := p
    by_cases hk : k = k''
    · subst hk
      simp [removeKey, findElt, h]
    · by_cases hk' : k' = k''
      · simp [removeKey, findElt, hk, hk']
      · simp [removeKey, findElt, hk, hk', ih]

theorem findElt_removeKey_self {es : List (K × Element V)} {k : K}
    (hwf : es.Pairwise fun p q => p.1 ≠ q.1) :
    findElt (removeKey es k) k = none := by
  induction es with
  | nil => simp [removeKey, findElt]
  | cons p rest ih =>
    obtain ⟨k', e'⟩ := p
    rw [List.pairwise_cons] at hwf
    by_cases hk : k = k'
    · simp only [removeKey, if_pos hk]
      rw [findElt_eq_none_iff]
      intro hmem
      rcases List.mem_map.1 hmem with ⟨q, hq, hq1⟩
      exact hwf.1 q hq ((hq1.trans hk).symm)
    · simp only [removeKey, if_neg hk, findElt, if_neg hk]
      exact ih hwf.2

theorem foldlMin_mem (xs : List (K × Element V)) (a : K × Element V) :
    xs.foldl (fun acc q => if q.2.index < acc.2.index then q else acc) a ∈ a :: xs := by
  induction xs generalizing a with
  | nil => exact List.mem_singleton.2 rfl
  | cons y xs ih =>
    show List.foldl _ (if y.2.index < a.2.index then y else a) xs ∈ a :: y :: xs
    by_cases hy : y.2.index < a.2.index
    · rw [if_pos hy]
      rcases List.mem_cons.1 (ih y) with h | h
      · rw [h]
        exact List.mem_cons_of_mem _ (List.mem_cons_self _ _)
      · exact List.mem_cons_of_mem _ (List.mem_cons_of_mem _ h)
    · rw [if_neg hy]
      rcases List.mem_cons.1 (ih a) with h | h
      · rw [h]
        exact List.mem_cons_self _ _
      · exact List.mem_cons_of_mem _ (List.mem_cons_of_mem _ h)

theorem foldlMin_le (xs : List (K × Element V)) (a : K × Element V) :
    (xs.foldl (fun acc q => if q.2.index < acc.2.index then q else acc) a).2.index ≤
      a.2.index ∧
    ∀ q ∈ xs,
      (xs.foldl (fun acc q => if q.2.index < acc.2.index then q else acc) a).2.index ≤
        q.2.index := by
  induction xs generalizing a with
  | nil => exact ⟨Nat.le_refl _, by simp⟩
  | cons y xs ih =>
    rw [List.foldl_cons]
    by_cases hy : y.2.index < a.2.index
    · rw [if_pos hy]
      obtain ⟨h1, h2⟩ := ih y
      refine ⟨Nat.le_trans h1 (Nat.le_of_lt hy), ?_⟩
      intro q hq
      rcases List.mem_cons.1 hq with h | h
      · rw [h]
        exact h1
      · exact h2 q h
    · rw [if_neg hy]
      obtain ⟨h1, h2⟩ := ih a
      refine ⟨h1, ?_⟩
      intro q hq
      rcases List.mem_cons.1 hq with h | h
      · rw [h]
        exact Nat.le_trans h1 (Nat.le_of_not_lt hy)
      · exact h2 q h

theorem minByIndex_mem {es : List (K × Element V)} {p : K × Element V}
    (h : minByIndex es = some p) : p ∈ es := by
  cases es with
  | nil => simp [minByIndex] at h
  | cons a xs =>
    simp only [minByIndex, Option.some.injEq] at h
    rw [← h]
    exact foldlMin_mem xs a

theorem minByIndex_le {es : List (K × Element V)} {p : K × Element V}
    (h : minByIndex es = some p) : ∀ q ∈ es, p.2.index ≤ q.2.index := by
  cases es with
  | nil => simp [minByIndex] at h
  | cons a xs =>
    simp only [minByIndex, Option.some.injEq] at h
    intro q hq
    rcases List.mem_cons.1 hq with h' | h'
    · rw [← h, h']
      exact (foldlMin_le xs a).1
    · rw [← h]
      exact (foldlMin_le xs a).2 q h'

theorem minByIndex_of_ne_nil {es : List (K × Element V)} (h : es ≠ []) :
    ∃ p, minByIndex es = some p := by
  cases es with
  | nil => exact absurd rfl h
  | cons a xs => exact ⟨_, rfl⟩

theorem evictIfFull_sublist (c : Cache K V) : (evictIfFull c).Sublist c.elements := by
  unfold evictIfFull
  split
  · split
    · exact removeKey_sublist _ _
    · exact List.Sublist.refl _
  · exact List.Sublist.refl _

theorem evictIfFull_length {c : Cache K V}
    (hlen : c.elements.length ≤ max c.size 1) :
    (evictIfFull c).length + 1 ≤ max c.size 1 := by
  unfold evictIfFull
  split
  · by_cases hnil : c.elements = []
    · rw [hnil]
      simp [minByIndex]
    · rcases minByIndex_of_ne_nil hnil with ⟨⟨ok, oe⟩, hp⟩
      rw [hp]
      show (removeKey c.elements ok).length + 1 ≤ max c.size 1
      have hmem : ok ∈ c.elements.map Prod.fst :=
        List.mem_map_of_mem Prod.fst (minByIndex_mem hp)
      have := removeKey_length hmem
      omega
  · rename_i hfull
    have : c.elements.length < c.size := Nat.lt_of_not_le hfull
    omega

/-- `evictIfFull` on a nonempty full cache removes exactly the entry returned
by the `min_by_key` scan. -/
theorem evictIfFull_eq_removeKey {c : Cache K V} {ok : K} {oe : Element V}
    (hfull : c.elements.length ≥ c.size) (hmin : minByIndex c.elements = some (ok, oe)) :
    evictIfFull c = removeKey c.elements ok := by
  unfold evictIfFull
  rw [if_pos hfull, hmin]

theorem findElt_updateAssoc_self {es : List (K × Element V)} {k : K} {e' : Element V}
    (h : findElt es k = some e') (e : Element V) :
    findElt (updateAssoc es k e) k = some e := by
  induction es with
  | nil => simp [findElt] at h
  | cons p rest ih =>
    obtain ⟨k', e''⟩ := p
    by_cases hk : k = k'
    · simp [updateAssoc, findElt, hk]
    · simp only [findElt, if_neg hk] at h
      simp [updateAssoc, findElt, hk, ih h]

theorem findElt_updateAssoc_ne {es : List (K × Element V)} {k k' : K} (e : Element V)
    (h : k' ≠ k) :
    findElt (updateAssoc es k e) k' = findElt es k' := by
  induction es with
  | nil => simp [updateAssoc]
  | cons p rest ih =>
    obtain ⟨k'', e''⟩ := p
    by_cases hk : k = k''
    · subst hk
      simp [updateAssoc, findElt, h]
    · by_cases hk' : k' = k''
      · simp [updateAssoc, findElt, hk, hk']
      · simp [updateAssoc, findElt, hk, hk', ih]

theorem updateAssoc_length (es : List (K × Element V)) (k : K) (e : Element V) :
    (updateAssoc es k e).length = es.length := by
  induction es with
  | nil => rfl
  | cons p rest ih =>
    obtain ⟨k', e'⟩ := p
    by_cases hk : k = k'
    · simp [updateAssoc, hk]
    · simp [updateAssoc, hk, ih]

/-- Claim C9: on a cache constructed with capacity 0, `put` of any key returns
no prior value, yet still inserts: the eviction scan over the empty map finds
no candidate, removes nothing, and the cache ends with one entry — more than
its capacity. -/
theorem c9_capacity_zero_put_overfills (k : K) (v : V) :
    ((Cache.new 0 : Cache K V).put k v).1 = none ∧
    ((Cache.new 0 : Cache K V).put k v).2.elements = [(k, ⟨1, v⟩)] ∧
    ((Cache.new 0 : Cache K V).put k v).2.elements.length = 1 ∧
    ((Cache.new 0 : Cache K V).put k v).2.size = 0 ∧
    ((Cache.new 0 : Cache K V).put k v).2.size <
      ((Cache.new 0 : Cache K V).put k v).2.elements.length :=
  ⟨rfl, rfl, rfl, rfl, Nat.zero_lt_one⟩

/-- Claim C5: `get` on a present key advances `max_index` by 1, restamps that
entry's index to the new `max_index`, returns the entry's value unchanged, and
leaves every other entry and the capacity unchanged; `get` on an absent key
returns `none` and changes nothing at all. -/
theorem c5_get_contract (c : Cache K V) (k : K) :
    (∀ e, c.get_elt k = some e →
      (c.get k).1 = some e.value ∧
      (c.get k).2.max_index = c.max_index + 1 ∧
      (c.get k).2.get_elt k = some ⟨c.max_index + 1, e.value⟩ ∧
      (c.get k).2.size = c.size ∧
      ∀ k', k' ≠ k → (c.get k).2.get_elt k' = c.get_elt k') ∧
    (c.get_elt k = none → c.get k = (none, c)) := by
  constructor
  · intro e he
    unfold Cache.get_elt at he
    have h1 : c.get k =
        (some e.value,
          ⟨updateAssoc c.elements k ⟨c.max_index + 1, e.value⟩, c.size, c.max_index + 1⟩) := by
      unfold Cache.get
      rw [he]
    rw [h1]
    exact ⟨rfl, rfl, findElt_updateAssoc_self he _, rfl,
      fun k' hk' => findElt_updateAssoc_ne _ hk'⟩
  · intro he
    unfold Cache.get_elt at he
    simp [Cache.get, he]

/-- Witness for C5 at a concrete cache. -/
theorem c5_get_contract_witness :
    ((⟨[(0, ⟨1, 10⟩)], 2, 1⟩ : Cache Nat Nat).get 0).1 = some 10 ∧
    ((⟨[(0, ⟨1, 10⟩)], 2, 1⟩ : Cache Nat Nat).get 0).2.get_elt 0 = some ⟨2, 10⟩ ∧
    (⟨[(0, ⟨1, 10⟩)], 2, 1⟩ : Cache Nat Nat).get 5 = (none, ⟨[(0, ⟨1, 10⟩)], 2, 1⟩) :=
  ⟨((c5_get_contract (⟨[(0, ⟨1, 10⟩)], 2, 1⟩ : Cache Nat Nat) 0).1 ⟨1, 10⟩ (by decide)).1,
   ((c5_get_contract (⟨[(0, ⟨1, 10⟩)], 2, 1⟩ : Cache Nat Nat) 0).1 ⟨1, 10⟩ (by decide)).2.2.1,
   (c5_get_contract (⟨[(0, ⟨1, 10⟩)], 2, 1⟩ : Cache Nat Nat) 5).2 (by decide)⟩

/-- Claim C6: `put` on a present key returns the prior value, replaces the
value, advances `max_index` by 1, restamps the entry's index to the new
`max_index`, and leaves every other entry, the entry count and the capacity
unchanged; `put` on an absent key returns no prior value. -/
theorem c6_put_contract (c : Cache K V) (k : K) (v : V) :
    (∀ e, c.get_elt k = some e →
      (c.put k v).1 = some e.value ∧
      (c.put k v).2.max_index = c.max_index + 1 ∧
      (c.put k v).2.get_elt k = some ⟨c.max_index + 1, v⟩ ∧
      (c.put k v).2.size = c.size ∧
      (c.put k v).2.elements.length = c.elements.length ∧
      ∀ k', k' ≠ k → (c.put k v).2.get_elt k' = c.get_elt k') ∧
    (c.get_elt k = none → (c.put k v).1 = none) := by
  constructor
  · intro e he
    unfold Cache.get_elt at he
    have h1 : c.put k v =
        (some e.value,
          ⟨updateAssoc c.elements k ⟨c.max_index + 1, v⟩, c.size, c.max_index + 1⟩) := by
      unfold Cache.put
      rw [he]
    rw [h1]
    exact ⟨rfl, rfl, findElt_updateAssoc_self he _, rfl, updateAssoc_length _ _ _,
      fun k' hk' => findElt_updateAssoc_ne _ hk'⟩
  · intro he
    unfold Cache.get_elt at he
    simp [Cache.put, he]

/-- Witness for C6 at a concrete cache. -/
theorem c6_put_contract_witness :
    ((⟨[(0, ⟨1, 10⟩)], 2, 1⟩ : Cache Nat Nat).put 0 99).1 = some 10 ∧
    ((⟨[(0, ⟨1, 10⟩)], 2, 1⟩ : Cache Nat Nat).put 0 99).2.get_elt 0 = some ⟨2, 99⟩ ∧
    ((⟨[(0, ⟨1, 10⟩)], 2, 1⟩ : Cache Nat Nat).put 5 7).1 = none :=
  ⟨((c6_put_contract (⟨[(0, ⟨1, 10⟩)], 2, 1⟩ : Cache Nat Nat) 0 99).1 ⟨1, 10⟩ (by decide)).1,
   ((c6_put_contract (⟨[(0, ⟨1, 10⟩)], 2, 1⟩ : Cache Nat Nat) 0 99).1 ⟨1, 10⟩ (by decide)).2.2.1,
   (c6_put_contract (⟨[(0, ⟨1, 10⟩)], 2, 1⟩ : Cache Nat Nat) 5 7).2 (by decide)⟩

theorem updateAssoc_pairwise_keys {es : List (K × Element V)} {k : K} {e : Element V}
    (hkeys : es.Pairwise fun p q => p.1 ≠ q.1) :
    (updateAssoc es k e).Pairwise fun p q => p.1 ≠ q.1 := by
  have hmf : ((updateAssoc es k e).map Prod.fst).Pairwise Ne := by
    rw [updateAssoc_map_fst]
    exact List.pairwise_map.2 hkeys
  exact List.pairwise_map.1 hmf

theorem wf_new (size : Nat) : Wf (Cache.new size : Cache K V) :=
  ⟨List.Pairwise.nil, List.Pairwise.nil, by simp [Cache.new], by simp [Cache.new]⟩

theorem wf_get {c : Cache K V} (h : Wf c) (k : K) : Wf (c.get k).2 := by
  obtain ⟨hkeys, hidx, hbound, hlen⟩ := h
  cases hf : findElt c.elements k with
  | none =>
    simp only [Cache.get, hf]
    exact ⟨hkeys, hidx, hbound, hlen⟩
  | some e =>
    simp only [Cache.get, hf]
    refine ⟨updateAssoc_pairwise_keys hkeys,
      updateAssoc_pairwise_index hidx hbound rfl, ?_, ?_⟩
    · intro p hp
      rcases mem_updateAssoc hp with h' | h'
      · exact Nat.le_succ_of_le (hbound p h')
      · show p.2.index ≤ c.max_index + 1
        rw [h']
    · show (updateAssoc c.elements k ⟨c.max_index + 1, e.value⟩).length ≤ max c.size 1
      rw [updateAssoc_length]
      exact hlen

theorem wf_put {c : Cache K V} (h : Wf c) (k : K) (v : V) : Wf (c.put k v).2 := by
  obtain ⟨hkeys, hidx, hbound, hlen⟩ := h
  cases hf : findElt c.elements k with
  | some e =>
    simp only [Cache.put, hf]
    refine ⟨updateAssoc_pairwise_keys hkeys,
      updateAssoc_pairwise_index hidx hbound rfl, ?_, ?_⟩
    · intro p hp
      rcases mem_updateAssoc hp with h' | h'
      · exact Nat.le_succ_of_le (hbound p h')
      · show p.2.index ≤ c.max_index + 1
        rw [h']
    · show (updateAssoc c.elements k ⟨c.max_index + 1, v⟩).length ≤ max c.size 1
      rw [updateAssoc_length]
      exact hlen
  | none =>
    simp only [Cache.put, hf]
    have hsub := evictIfFull_sublist c
    have habs : k ∉ (evictIfFull c).map Prod.fst := by
      intro hmem
      exact findElt_eq_none_iff.1 hf ((hsub.map Prod.fst).subset hmem)
    refine ⟨?_, ?_, ?_, ?_⟩
    · show ((evictIfFull c ++ [(k, (⟨c.max_index + 1, v⟩ : Element V))]).Pairwise
        fun p q => p.1 ≠ q.1)
      rw [List.pairwise_append]
      refine ⟨hkeys.sublist hsub, List.pairwise_singleton _ _, ?_⟩
      intro p hp q hq
      obtain rfl := List.mem_singleton.1 hq
      intro hpq
      have hpq' : p.1 = k := hpq
      exact habs (hpq' ▸ List.mem_map_of_mem Prod.fst hp)
    · show ((evictIfFull c ++ [(k, (⟨c.max_index + 1, v⟩ : Element V))]).Pairwise
        fun p q => p.2.index ≠ q.2.index)
      rw [List.pairwise_append]
      refine ⟨hidx.sublist hsub, List.pairwise_singleton _ _, ?_⟩
      intro p hp q hq
      obtain rfl := List.mem_singleton.1 hq
      have hb : p.2.index ≤ c.max_index := hbound p (hsub.subset hp)
      show p.2.index ≠ c.max_index + 1
      omega
    · intro p hp
      rcases List.mem_append.1 hp with h' | h'
      · exact Nat.le_succ_of_le (hbound p (hsub.subset h'))
      · obtain rfl := List.mem_singleton.1 h'
        exact Nat.le_refl _
    · show (evictIfFull c ++ [(k, (⟨c.max_index + 1, v⟩ : Element V))]).length ≤ max c.size 1
      rw [List.length_append]
      have := evictIfFull_length hlen
      simp only [List.length_singleton]
      omega

theorem wf_applyOp {c : Cache K V} (h : Wf c) (op : Op K V) : Wf (applyOp c op) := by
  cases op with
  | getOp k => exact wf_get h k
  | putOp k v => exact wf_put h k v
  | peekOp k => exact h

theorem wf_foldl {c : Cache K V} (h : Wf c) (ops : List (Op K V)) :
    Wf (ops.foldl applyOp c) := by
  induction ops generalizing c with
  | nil => exact h
  | cons op ops ih => exact ih (wf_applyOp h op)

theorem wf_runOps (size : Nat) (ops : List (Op K V)) : Wf (runOps size ops) :=
  wf_foldl (wf_new size) ops

theorem applyOp_size (c : Cache K V) (op : Op K V) : (applyOp c op).size = c.size := by
  cases op with
  | getOp k =>
    cases hf : findElt c.elements k with
    | none => simp [applyOp, Cache.get, hf]
    | some e => simp [applyOp, Cache.get, hf]
  | putOp k v =>
    cases hf : findElt c.elements k with
    | none => simp [applyOp, Cache.put, hf]
    | some e => simp [applyOp, Cache.put, hf]
  | peekOp k => rfl

theorem runOps_size (size : Nat) (ops : List (Op K V)) : (runOps size ops).size = size := by
  unfold runOps
  have h : ∀ (c : Cache K V), (ops.foldl applyOp c).size = c.size := by
    induction ops with
    | nil => intro c; rfl
    | cons op ops ih =>
      intro c
      rw [List.foldl_cons, ih, applyOp_size]
  exact h _

theorem applyOp_max_index_mono (c : Cache K V) (op : Op K V) :
    c.max_index ≤ (applyOp c op).max_index := by
  cases op with
  | getOp k =>
    cases hf : findElt c.elements k with
    | none => simp [applyOp, Cache.get, hf]
    | some e =>
      simp only [applyOp, Cache.get, hf]
      exact Nat.le_succ _
  | putOp k v =>
    cases hf : findElt c.elements k with
    | none =>
      simp only [applyOp, Cache.put, hf]
      exact Nat.le_succ _
    | some e =>
      simp only [applyOp, Cache.put, hf]
      exact Nat.le_succ _
  | peekOp k => exact Nat.le_refl _

/-- Claim C3 (corrected: the bound requires capacity at least 1; a capacity-0
cache reaches one entry, see the counterexample): starting from
`Cache::new(size)` with `1 ≤ size`, after any sequence of `get`, `put` and
`peek` operations the number of entries is at most `size`. -/
theorem c3_length_le_capacity (size : Nat) (hsize : 1 ≤ size) (ops : List (Op K V)) :
    (runOps size ops).elements.length ≤ size := by
  have h := (wf_runOps size ops).2.2.2
  rw [runOps_size] at h
  rwa [Nat.max_eq_left hsize] at h

/-- Witness for C3 at a concrete operation sequence over capacity. -/
theorem c3_length_le_capacity_witness :
    1 ≤ 2 ∧
    (runOps 2 [Op.putOp 1 10, Op.putOp 2 20, Op.putOp 3 30, Op.getOp 2] :
      Cache Nat Nat).elements.length ≤ 2 :=
  ⟨by decide, c3_length_le_capacity 2 (by decide) [Op.putOp 1 10, Op.putOp 2 20,
    Op.putOp 3 30, Op.getOp 2]⟩

/-- Counterexample to C3 as stated: with capacity 0 a single `put` leaves the
cache with one entry, exceeding its capacity. -/
theorem c3_counterexample :
    ¬ ((runOps 0 [Op.putOp 1 1] : Cache Nat Nat).elements.length ≤
      (runOps 0 [Op.putOp 1 1] : Cache Nat Nat).size) := by
  decide

/-- Claim C4: in every state reachable from `Cache::new` by `get`, `put` and
`peek`, the indices of the current entries are pairwise distinct; and
`max_index` never decreases across any single operation (so it is never reset,
eviction included). -/
theorem c4_ranks_distinct_counter_monotone :
    (∀ (size : Nat) (ops : List (Op K V)),
      (runOps size ops).elements.Pairwise fun p q => p.2.index ≠ q.2.index) ∧
    (∀ (c : Cache K V) (op : Op K V), c.max_index ≤ (applyOp c op).max_index) :=
  ⟨fun size ops => (wf_runOps size ops).2.1, applyOp_max_index_mono⟩

/-- Claim C1 (corrected: also requires the cache to be nonempty; the empty
capacity-0 cache satisfies `len >= size` yet `put` removes nothing, see the
counterexample): on a full, nonempty, well-formed cache, `put` of an absent
key removes exactly the (unique) entry of globally minimum index, inserts the
new key with index `max_index + 1`, keeps the entry count, and touches no
other entry. -/
theorem c1_put_evicts_minimum (c : Cache K V) (k : K) (v : V)
    (hkeys : c.elements.Pairwise fun p q => p.1 ≠ q.1)
    (hidx : c.elements.Pairwise fun p q => p.2.index ≠ q.2.index)
    (habs : c.get_elt k = none)
    (hfull : c.size ≤ c.elements.length)
    (hne : c.elements ≠ []) :
    ∃ ko eo, (ko, eo) ∈ c.elements ∧
      (∀ q ∈ c.elements, eo.index ≤ q.2.index) ∧
      (∀ q ∈ c.elements, q ≠ (ko, eo) → eo.index < q.2.index) ∧
      (c.put k v).2.get_elt ko = none ∧
      (c.put k v).2.get_elt k = some ⟨c.max_index + 1, v⟩ ∧
      (c.put k v).2.elements.length = c.elements.length ∧
      ∀ k', k' ≠ ko → k' ≠ k → (c.put k v).2.get_elt k' = c.get_elt k' := by
  unfold Cache.get_elt at habs
  rcases minByIndex_of_ne_nil hne with ⟨⟨ko, oe⟩, hmin⟩
  have hmem : (ko, oe) ∈ c.elements := minByIndex_mem hmin
  have hko_mem : ko ∈ c.elements.map Prod.fst := List.mem_map_of_mem Prod.fst hmem
  have hko_ne_k : ko ≠ k := by
    intro hkk
    exact findElt_eq_none_iff.1 habs (hkk ▸ hko_mem)
  have hev : evictIfFull c = removeKey c.elements ko := evictIfFull_eq_removeKey hfull hmin
  have hput : (c.put k v).2.elements = removeKey c.elements ko ++ [(k, ⟨c.max_index + 1, v⟩)] := by
    simp only [Cache.put, habs, hev]
  refine ⟨ko, oe, hmem, minByIndex_le hmin, ?_, ?_, ?_, ?_, ?_⟩
  · intro q hq hqne
    have hle : oe.index ≤ q.2.index := minByIndex_le hmin q hq
    have hsym : Symmetric fun (p q : K × Element V) => p.2.index ≠ q.2.index :=
      fun p q h => Ne.symm h
    have hne' : oe.index ≠ q.2.index := hidx.forall hsym hmem hq (Ne.symm hqne)
    omega
  · show findElt (c.put k v).2.elements ko = none
    rw [hput, findElt_append, findElt_removeKey_self hkeys]
    simp [findElt, hko_ne_k]
  · show findElt (c.put k v).2.elements k = some ⟨c.max_index + 1, v⟩
    rw [hput, findElt_append]
    have : findElt (removeKey c.elements ko) k = none := by
      rw [findElt_removeKey_ne (Ne.symm hko_ne_k)]
      exact habs
    rw [this]
    simp [findElt]
  · rw [hput, List.length_append, List.length_singleton]
    have := removeKey_length hko_mem
    omega
  · intro k' hk'ko hk'k
    show findElt (c.put k v).2.elements k' = findElt c.elements k'
    rw [hput, findElt_append]
    rw [findElt_removeKey_ne hk'ko]
    cases hf' : findElt c.elements k' with
    | none => simp [findElt, hk'k]
    | some e' => rfl

/-- Witness for C1 on a full two-entry cache: putting a third key evicts the
minimum-index entry and no other. -/
theorem c1_put_evicts_minimum_witness :
    ∃ ko eo, (ko, eo) ∈ (⟨[(1, ⟨1, 10⟩), (2, ⟨2, 20⟩)], 2, 2⟩ : Cache Nat Nat).elements ∧
      (∀ q ∈ (⟨[(1, ⟨1, 10⟩), (2, ⟨2, 20⟩)], 2, 2⟩ : Cache Nat Nat).elements,
        eo.index ≤ q.2.index) ∧
      (∀ q ∈ (⟨[(1, ⟨1, 10⟩), (2, ⟨2, 20⟩)], 2, 2⟩ : Cache Nat Nat).elements,
        q ≠ (ko, eo) → eo.index < q.2.index) ∧
      ((⟨[(1, ⟨1, 10⟩), (2, ⟨2, 20⟩)], 2, 2⟩ : Cache Nat Nat).put 3 30).2.get_elt ko =
        none ∧
      ((⟨[(1, ⟨1, 10⟩), (2, ⟨2, 20⟩)], 2, 2⟩ : Cache Nat Nat).put 3 30).2.get_elt 3 =
        some ⟨(⟨[(1, ⟨1, 10⟩), (2, ⟨2, 20⟩)], 2, 2⟩ : Cache Nat Nat).max_index + 1, 30⟩ ∧
      ((⟨[(1, ⟨1, 10⟩), (2, ⟨2, 20⟩)], 2, 2⟩ : Cache Nat Nat).put 3 30).2.elements.length =
        (⟨[(1, ⟨1, 10⟩), (2, ⟨2, 20⟩)], 2, 2⟩ : Cache Nat Nat).elements.length ∧
      ∀ k', k' ≠ ko → k' ≠ 3 →
        ((⟨[(1, ⟨1, 10⟩), (2, ⟨2, 20⟩)], 2, 2⟩ : Cache Nat Nat).put 3 30).2.get_elt k' =
          (⟨[(1, ⟨1, 10⟩), (2, ⟨2, 20⟩)], 2, 2⟩ : Cache Nat Nat).get_elt k' :=
  c1_put_evicts_minimum (⟨[(1, ⟨1, 10⟩), (2, ⟨2, 20⟩)], 2, 2⟩ : Cache Nat Nat) 3 30
    (by decide) (by decide) (by decide) (by decide) (by decide)

/-- Counterexample to C1 as stated: the empty capacity-0 cache has entry count
at least its capacity and the key absent, yet `put` removes no entry — the
entry count grows by one instead of staying level, so no entry (let alone a
minimum-rank one) was removed. -/
theorem c1_counterexample :
    (Cache.new 0 : Cache Nat Nat).size ≤ (Cache.new 0 : Cache Nat Nat).elements.length ∧
    (Cache.new 0 : Cache Nat Nat).get_elt 5 = none ∧
    ((Cache.new 0 : Cache Nat Nat).put 5 7).2.elements.length =
      (Cache.new 0 : Cache Nat Nat).elements.length + 1 := by
  decide

theorem splitOnce_cons (sep c : Char) (rest : Str) :
    splitOnce sep (c :: rest) =
      if c = sep then some ([], rest)
      else
        match splitOnce sep rest with
        | some (a, b) => some (c :: a, b)
        | none => none := rfl

theorem splitLines_one (c : Char) :
    splitLines [c] = if c = '\n' then [[]] else [[c]] := rfl

theorem splitLines_cons_cons (c c' : Char) (rest : Str) :
    splitLines (c :: c' :: rest) =
      if c = '\n' then [] :: splitLines (c' :: rest)
      else if c = '\r' ∧ c' = '\n' then [] :: splitLines rest
      else
        match splitLines (c' :: rest) with
        | [] => [[c]]
        | l :: ls => (c :: l) :: ls := rfl

theorem splitLines_newline_cons (t : Str) :
    splitLines ('\n' :: t) = [] :: splitLines t := by
  cases t with
  | nil => rfl
  | cons c t' => rw [splitLines_cons_cons, if_pos rfl]

theorem splitOnce_encode {k : Str} (v : Str) (hk : ':' ∉ k) :
    splitOnce ':' (k ++ ':' :: v) = some (k, v) := by
  induction k with
  | nil => simp [splitOnce]
  | cons c k ih =>
    have hc : ¬ (c = ':') := fun h => hk (h ▸ List.mem_cons_self _ _)
    have ih' := ih fun h => hk (List.mem_cons_of_mem _ h)
    rw [List.cons_append, splitOnce_cons, if_neg hc, ih']

theorem splitLines_no_newline {l : Str} (hne : l ≠ []) (hnl : '\n' ∉ l) :
    splitLines l = [l] := by
  induction l with
  | nil => exact absurd rfl hne
  | cons c rest ih =>
    have hc : ¬ (c = '\n') := fun h => hnl (h ▸ List.mem_cons_self _ _)
    cases rest with
    | nil => rw [splitLines_one, if_neg hc]
    | cons c' rest' =>
      have hc' : ¬ (c' = '\n') := fun h =>
        hnl (List.mem_cons_of_mem _ (h ▸ List.mem_cons_self _ _))
      have ih' := ih (List.cons_ne_nil _ _) fun h => hnl (List.mem_cons_of_mem _ h)
      rw [splitLines_cons_cons, if_neg hc, if_neg fun h => hc' h.2, ih']

theorem splitLines_append {l : Str} (t : Str) (hnl : '\n' ∉ l)
    (hcr : l.getLast? ≠ some '\r') :
    splitLines (l ++ '\n' :: t) = l :: splitLines t := by
  induction l with
  | nil => exact splitLines_newline_cons t
  | cons c rest ih =>
    have hc : ¬ (c = '\n') := fun h => hnl (h ▸ List.mem_cons_self _ _)
    cases rest with
    | nil =>
      have hcr' : ¬ (c = '\r') := by
        intro h
        apply hcr
        rw [h]
        rfl
      rw [List.cons_append, List.nil_append, splitLines_cons_cons, if_neg hc,
        if_neg fun h => hcr' h.1, splitLines_newline_cons]
    | cons c'' rest'' =>
      have hc'' : ¬ (c'' = '\n') := fun h =>
        hnl (List.mem_cons_of_mem _ (h ▸ List.mem_cons_self _ _))
      have hcr'' : (c'' :: rest'').getLast? ≠ some '\r' := by
        intro h
        apply hcr
        rw [List.getLast?_cons_cons]
        exact h
      have ih' := ih (fun h => hnl (List.mem_cons_of_mem _ h)) hcr''
      rw [List.cons_append] at ih'
      rw [List.cons_append, List.cons_append, splitLines_cons_cons, if_neg hc,
        if_neg fun h => hc'' h.2, ih']

theorem splitLines_joinLines {ls : List Str}
    (h : ∀ l ∈ ls, l ≠ [] ∧ '\n' ∉ l ∧ l.getLast? ≠ some '\r') :
    splitLines (joinLines ls) = ls := by
  induction ls with
  | nil => rfl
  | cons l ls ih =>
    cases ls with
    | nil =>
      have hl := h l (List.mem_cons_self _ _)
      show splitLines l = [l]
      exact splitLines_no_newline hl.1 hl.2.1
    | cons l' ls' =>
      have hl := h l (List.mem_cons_self _ _)
      show splitLines (l ++ '\n' :: joinLines (l' :: ls')) = l :: l' :: ls'
      rw [splitLines_append _ hl.2.1 hl.2.2]
      rw [ih fun x hx => h x (List.mem_cons_of_mem _ hx)]

theorem parseLine_encode (c : Cache Str Str) {k : Str} (v : Str) (hk : ':' ∉ k) :
    parseLine c (k ++ ':' :: v) = (c.put k v).2 := by
  unfold parseLine
  rw [splitOnce_encode v hk]

theorem foldl_parseLine_encode (ps : List (Str × Str)) (c : Cache Str Str)
    (hk : ∀ p ∈ ps, ':' ∉ p.1) :
    (ps.map fun p => p.1 ++ ':' :: p.2).foldl parseLine c = putAll c ps := by
  induction ps generalizing c with
  | nil => rfl
  | cons p ps ih =>
    obtain ⟨k, v⟩ := p
    simp only [List.map_cons, List.foldl_cons]
    rw [parseLine_encode c v (hk (k, v) (List.mem_cons_self _ _))]
    exact ih _ fun q hq => hk q (List.mem_cons_of_mem _ hq)

theorem numberFrom_map_fst (m : Nat) (ps : List (K × V)) :
    (numberFrom m ps).map Prod.fst = ps.map Prod.fst := by
  induction ps generalizing m with
  | nil => rfl
  | cons p ps ih =>
    obtain ⟨k, v⟩ := p
    simp only [numberFrom, List.map_cons, ih]

theorem numberFrom_length (m : Nat) (ps : List (K × V)) :
    (numberFrom m ps).length = ps.length := by
  induction ps generalizing m with
  | nil => rfl
  | cons p ps ih =>
    obtain ⟨k, v⟩ := p
    simp only [numberFrom, List.length_cons, ih]

theorem putAll_fresh (ps : List (K × V)) :
    ∀ (es : List (K × Element V)) (size m : Nat),
      (∀ p ∈ ps, findElt es p.1 = none) →
      (ps.Pairwise fun p q => p.1 ≠ q.1) →
      es.length + ps.length ≤ size →
      putAll ⟨es, size, m⟩ ps = ⟨es ++ numberFrom m ps, size, m + ps.length⟩ := by
  induction ps with
  | nil =>
    intro es size m _ _ _
    simp [putAll, numberFrom]
  | cons p ps ih =>
    obtain ⟨k, v⟩ := p
    intro es size m habs hpw hlen
    rw [List.pairwise_cons] at hpw
    have hfk : findElt es k = none := habs (k, v) (List.mem_cons_self _ _)
    have hnotfull : ¬ (es.length ≥ size) := by
      simp only [List.length_cons] at hlen
      omega
    have hev : evictIfFull (⟨es, size, m⟩ : Cache K V) = es := by
      unfold evictIfFull
      exact if_neg hnotfull
    have hput : (Cache.put ⟨es, size, m⟩ k v).2 =
        ⟨es ++ [(k, ⟨m + 1, v⟩)], size, m + 1⟩ := by
      simp only [Cache.put, hfk, hev]
    have hstep : putAll (⟨es, size, m⟩ : Cache K V) ((k, v) :: ps) =
        putAll (Cache.put ⟨es, size, m⟩ k v).2 ps := rfl
    have h1 : ∀ q ∈ ps, findElt (es ++ [(k, (⟨m + 1, v⟩ : Element V))]) q.1 = none := by
      intro q hq
      rw [findElt_append, habs q (List.mem_cons_of_mem _ hq)]
      have hqk : q.1 ≠ k := Ne.symm (hpw.1 q hq)
      simp [findElt, hqk]
    have h3 : (es ++ [(k, (⟨m + 1, v⟩ : Element V))]).length + ps.length ≤ size := by
      simp only [List.length_append, List.length_singleton]
      simp only [List.length_cons] at hlen
      omega
    rw [hstep, hput, ih _ _ _ h1 hpw.2 h3]
    simp only [Cache.mk.injEq, numberFrom, List.length_cons]
    refine ⟨?_, trivial, by omega⟩
    rw [List.append_assoc]
    rfl

theorem readFileContent_eq (size : Nat) (content : Str) :
    readFileContent size content =
      (if (splitLines content).length > size then
          (splitLines content).drop ((splitLines content).length - size)
        else splitLines content).foldl parseLine (Cache.new size) := rfl

theorem encode_lines_wf {ps : List (Str × Str)}
    (hfmt : ∀ p ∈ ps, ':' ∉ p.1 ∧ '\n' ∉ p.1 ∧ '\n' ∉ p.2 ∧ p.2.getLast? ≠ some '\r') :
    ∀ l ∈ ps.map fun p => p.1 ++ ':' :: p.2,
      l ≠ [] ∧ '\n' ∉ l ∧ l.getLast? ≠ some '\r' := by
  intro l hl
  rcases List.mem_map.1 hl with ⟨p, hp, rfl⟩
  obtain ⟨hk, hkn, hvn, hvr⟩ := hfmt p hp
  refine ⟨?_, ?_, ?_⟩
  · intro h
    rcases List.append_eq_nil.1 h with ⟨_, h2⟩
    exact List.cons_ne_nil _ _ h2
  · intro h
    rcases List.mem_append.1 h with h | h
    · exact hkn h
    · rcases List.mem_cons.1 h with h | h
      · exact absurd h (by decide)
      · exact hvn h
  · rw [List.getLast?_append_cons]
    cases hv : p.2 with
    | nil => decide
    | cons a t =>
      rw [List.getLast?_cons_cons]
      rw [hv] at hvr
      exact hvr

/-- Core round trip: reading the encoding of a list of raw pairs, all fitting
within the capacity, puts them in file order with consecutive indices from 1. -/
theorem readFileContent_encode (ps : List (Str × Str)) (size : Nat)
    (hpw : ps.Pairwise fun p q => p.1 ≠ q.1)
    (hfmt : ∀ p ∈ ps, ':' ∉ p.1 ∧ '\n' ∉ p.1 ∧ '\n' ∉ p.2 ∧ p.2.getLast? ≠ some '\r')
    (hfit : ps.length ≤ size) :
    readFileContent size (joinLines (ps.map fun p => p.1 ++ ':' :: p.2)) =
      ⟨numberFrom 0 ps, size, ps.length⟩ := by
  rw [readFileContent_eq, splitLines_joinLines (encode_lines_wf hfmt)]
  rw [if_neg (by simp only [List.length_map]; omega)]
  rw [foldl_parseLine_encode ps _ fun p hp => (hfmt p hp).1]
  have hfill := putAll_fresh ps [] size 0 (fun p _ => rfl) hpw
    (by simp only [List.length_nil]; omega)
  rw [show (Cache.new size : Cache Str Str) = (⟨[], size, 0⟩ : Cache Str Str) from rfl,
    hfill]
  simp

/-- Claim C8: reading an absent or unreadable location returns an empty cache
with the requested capacity, no entries and `max_index = 0`, and leaves an
empty file at the location; the failure is absorbed, never surfaced (the
function is total and always returns a cache). -/
theorem c8_read_missing_location (size : Nat) :
    (read_file size none).1.elements = [] ∧
    (read_file size none).1.size = size ∧
    (read_file size none).1.max_index = 0 ∧
    (read_file size none).2 = some [] :=
  ⟨rfl, rfl, rfl, rfl⟩

/-- Claim C2 (corrected: the round trip additionally requires the spec's
implicit file-format constraint — keys free of the delimiter and of newlines,
values free of newlines and not ending in a carriage return; a newline inside
a value breaks it, see the counterexample, and a trailing carriage return on a
value would be stripped by `str::lines`): reading back the file written from a
well-formed cache with at most `size` entries, at the same capacity, rebuilds
exactly the entries in ascending original-rank order with ranks renumbered
consecutively from 1 and values unchanged; the sorted entry list is a
permutation of the original one, ordered by ascending rank. -/
theorem c2_write_read_roundtrip (c : Cache Str Str)
    (hkeys : c.elements.Pairwise fun p q => p.1 ≠ q.1)
    (hfit : c.elements.length ≤ c.size)
    (hfmt : ∀ p ∈ c.elements, ':' ∉ p.1 ∧ '\n' ∉ p.1 ∧ '\n' ∉ p.2.value ∧
      p.2.value.getLast? ≠ some '\r') :
    (read_file c.size (some (write_file c))).1 =
      ⟨numberFrom 0 ((sortByIndex c.elements).map fun p => (p.1, p.2.value)),
        c.size, c.elements.length⟩ ∧
    (sortByIndex c.elements).Perm c.elements ∧
    (sortByIndex c.elements).Pairwise fun p q => p.2.index ≤ q.2.index := by
  have hperm : (sortByIndex c.elements).Perm c.elements :=
    List.perm_insertionSort _ _
  have hmem : ∀ p ∈ sortByIndex c.elements, p ∈ c.elements := fun p hp =>
    hperm.mem_iff.1 hp
  refine ⟨?_, hperm, ?_⟩
  · have hmapmap : (sortByIndex c.elements).map encodeEntry =
        ((sortByIndex c.elements).map fun p => (p.1, p.2.value)).map
          fun p => p.1 ++ ':' :: p.2 := by
      rw [List.map_map]
      rfl
    have hpw : (((sortByIndex c.elements).map fun p => (p.1, p.2.value)).Pairwise
        fun p q => p.1 ≠ q.1) := by
      rw [List.pairwise_map]
      exact (hperm.pairwise_iff fun h => Ne.symm h).2 hkeys
    have hfmt' : ∀ p ∈ (sortByIndex c.elements).map fun p => (p.1, p.2.value),
        ':' ∉ p.1 ∧ '\n' ∉ p.1 ∧ '\n' ∉ p.2 ∧ p.2.getLast? ≠ some '\r' := by
      intro p hp
      rcases List.mem_map.1 hp with ⟨q, hq, rfl⟩
      exact hfmt q (hmem q hq)
    have hfit' : ((sortByIndex c.elements).map fun p => (p.1, p.2.value)).length ≤
        c.size := by
      rw [List.length_map, hperm.length_eq]
      exact hfit
    have hcore := readFileContent_encode _ c.size hpw hfmt' hfit'
    show readFileContent c.size (write_file c) = _
    unfold write_file
    rw [hmapmap, hcore]
    congr 1
    rw [List.length_map, hperm.length_eq]
  · haveI : IsTotal (Str × Element Str) fun p q => p.2.index ≤ q.2.index :=
      ⟨fun a b => Nat.le_total a.2.index b.2.index⟩
    haveI : IsTrans (Str × Element Str) fun p q => p.2.index ≤ q.2.index :=
      ⟨fun a b d hab hbd => Nat.le_trans hab hbd⟩
    exact List.sorted_insertionSort _ _

/-- Witness for C2 at the spec's example: entries A:1 (rank 1), B:2 (rank 3),
C:3 (rank 2) at capacity 3 read back as A, C, B with ranks 1, 2, 3. -/
theorem c2_write_read_roundtrip_witness :
    (read_file 3 (some (write_file
        (⟨[(['A'], ⟨1, ['1']⟩), (['B'], ⟨3, ['2']⟩), (['C'], ⟨2, ['3']⟩)], 3, 3⟩ :
          Cache Str Str)))).1 =
      ⟨[(['A'], ⟨1, ['1']⟩), (['C'], ⟨2, ['3']⟩), (['B'], ⟨3, ['2']⟩)], 3, 3⟩ :=
  ((c2_write_read_roundtrip
      (⟨[(['A'], ⟨1, ['1']⟩), (['B'], ⟨3, ['2']⟩), (['C'], ⟨2, ['3']⟩)], 3, 3⟩ :
        Cache Str Str)
      (by decide) (by decide) (by decide)).1).trans (by decide)

/-- Counterexample to C2 as stated: the identity text conversion of `String`
is lossless, yet a value containing a newline is cut at that newline by the
round trip, so the reconstructed value differs. -/
theorem c2_counterexample :
    (⟨[(['A'], ⟨1, ['x', '\n', 'y']⟩)], 2, 1⟩ : Cache Str Str).elements.length ≤
      (⟨[(['A'], ⟨1, ['x', '\n', 'y']⟩)], 2, 1⟩ : Cache Str Str).size ∧
    (read_file 2 (some (write_file
        (⟨[(['A'], ⟨1, ['x', '\n', 'y']⟩)], 2, 1⟩ : Cache Str Str)))).1.get_elt ['A'] =
      some ⟨1, ['x']⟩ ∧
    (['x'] : Str) ≠ ['x', '\n', 'y'] := by
  decide

/-- Claim C7: when a well-formatted file (keys free of the delimiter and of
newlines, values free of newlines and not ending in a carriage return, so that
each written pair is exactly one line of the file) holds more lines than the
capacity, reading keeps exactly the last `size` lines, feeding them through
`put` in file order (so they get consecutive ranks from 1), and no earlier key
survives. -/
theorem c7_read_truncates_to_last (ps : List (Str × Str)) (size : Nat)
    (hpw : ps.Pairwise fun p q => p.1 ≠ q.1)
    (hfmt : ∀ p ∈ ps, ':' ∉ p.1 ∧ '\n' ∉ p.1 ∧ '\n' ∉ p.2 ∧ p.2.getLast? ≠ some '\r')
    (hgt : size < ps.length) :
    (read_file size (some (encodePairs ps))).1 =
      ⟨numberFrom 0 (ps.drop (ps.length - size)), size, size⟩ ∧
    ∀ k, ((read_file size (some (encodePairs ps))).1.get_elt k = none ↔
      k ∉ (ps.drop (ps.length - size)).map Prod.fst) := by
  have hmain : (read_file size (some (encodePairs ps))).1 =
      ⟨numberFrom 0 (ps.drop (ps.length - size)), size, size⟩ := by
    show readFileContent size (encodePairs ps) = _
    unfold encodePairs
    rw [readFileContent_eq, splitLines_joinLines (encode_lines_wf hfmt)]
    rw [if_pos (by simp only [List.length_map]; omega)]
    simp only [List.length_map]
    rw [← List.map_drop]
    rw [foldl_parseLine_encode (ps.drop (ps.length - size)) _
      fun p hp => (hfmt p ((List.drop_sublist _ _).subset hp)).1]
    have hfill := putAll_fresh (ps.drop (ps.length - size)) [] size 0
      (fun p _ => rfl) (hpw.sublist (List.drop_sublist _ _))
      (by simp only [List.length_nil, List.length_drop]; omega)
    rw [show (Cache.new size : Cache Str Str) = (⟨[], size, 0⟩ : Cache Str Str) from rfl,
      hfill]
    simp only [List.nil_append, Nat.zero_add, List.length_drop]
    congr 1
    omega
  refine ⟨hmain, ?_⟩
  intro k
  rw [hmain]
  show findElt (numberFrom 0 (ps.drop (ps.length - size))) k = none ↔ _
  rw [findElt_eq_none_iff, numberFrom_map_fst]

/-- Witness for C7: a file with lines for A, B, C, D read at capacity 2 keeps
exactly C and D. -/
theorem c7_read_truncates_to_last_witness :
    ((read_file 2 (some (encodePairs
        [(['A'], ['1']), (['B'], ['2']), (['C'], ['3']), (['D'], ['4'])]))).1 =
      ⟨numberFrom 0
          ([(['A'], ['1']), (['B'], ['2']), (['C'], ['3']), (['D'], ['4'])].drop
            ([(['A'], ['1']), (['B'], ['2']), (['C'], ['3']), (['D'], ['4'])].length - 2)),
        2, 2⟩ ∧
      ∀ k, ((read_file 2 (some (encodePairs
          [(['A'], ['1']), (['B'], ['2']), (['C'], ['3']), (['D'], ['4'])]))).1.get_elt k =
          none ↔
        k ∉ ([(['A'], ['1']), (['B'], ['2']), (['C'], ['3']), (['D'], ['4'])].drop
            ([(['A'], ['1']), (['B'], ['2']), (['C'], ['3']), (['D'], ['4'])].length - 2)).map
          Prod.fst)) :=
  c7_read_truncates_to_last
    [(['A'], ['1']), (['B'], ['2']), (['C'], ['3']), (['D'], ['4'])] 2
    (by decide) (by decide) (by decide)

/-- Claim C10: a value containing the delimiter (but no newline) survives the
write-then-read round trip unchanged, because `read` splits each line only at
the first colon; only a delimiter inside the key corrupts the line. -/
theorem c10_colon_value_survives (k v : Str) (i cap : Nat)
    (hk : ':' ∉ k) (hkn : '\n' ∉ k) (hvn : '\n' ∉ v) (hcap : 1 ≤ cap) :
    splitOnce ':' (k ++ ':' :: v) = some (k, v) ∧
    (read_file cap (some (write_file ⟨[(k, ⟨i, v⟩)], cap, i⟩))).1.get_elt k =
      some ⟨1, v⟩ := by
  refine ⟨splitOnce_encode v hk, ?_⟩
  show (readFileContent cap (k ++ ':' :: v)).get_elt k = some ⟨1, v⟩
  rw [readFileContent_eq]
  have hline : splitLines (k ++ ':' :: v) = [k ++ ':' :: v] := by
    apply splitLines_no_newline
    · intro h
      rcases List.append_eq_nil.1 h with ⟨_, h2⟩
      exact List.cons_ne_nil _ _ h2
    · intro h
      rcases List.mem_append.1 h with h | h
      · exact hkn h
      · rcases List.mem_cons.1 h with h | h
        · exact absurd h (by decide)
        · exact hvn h
  rw [hline]
  rw [if_neg (by simp only [List.length_singleton]; omega)]
  show (parseLine (Cache.new cap) (k ++ ':' :: v)).get_elt k = some ⟨1, v⟩
  rw [parseLine_encode _ v hk]
  have hnotfull : ¬ ((Cache.new cap : Cache Str Str).elements.length ≥
      (Cache.new cap : Cache Str Str).size) := by
    show ¬ (([] : List (Str × Element Str)).length ≥ cap)
    simp only [List.length_nil]
    omega
  have hev : evictIfFull (Cache.new cap : Cache Str Str) = [] := by
    unfold evictIfFull
    exact if_neg hnotfull
  have hfk : findElt ((Cache.new cap : Cache Str Str).elements) k = none := rfl
  have hput : ((Cache.new cap : Cache Str Str).put k v).2 =
      ⟨[(k, ⟨1, v⟩)], cap, 1⟩ := by
    simp only [Cache.put, hfk, hev, List.nil_append]
    rfl
  rw [hput]
  show findElt [(k, ⟨1, v⟩)] k = some ⟨1, v⟩
  simp [findElt]

/-- Witness for C10: value `a:b` (containing the delimiter) read back intact. -/
theorem c10_colon_value_survives_witness :
    splitOnce ':' (['A'] ++ ':' :: ['a', ':', 'b']) = some (['A'], ['a', ':', 'b']) ∧
    (read_file 1 (some (write_file
        (⟨[(['A'], ⟨5, ['a', ':', 'b']⟩)], 1, 5⟩ : Cache Str Str)))).1.get_elt ['A'] =
      some ⟨1, ['a', ':', 'b']⟩ :=
  c10_colon_value_survives ['A'] ['a', ':', 'b'] 5 1 (by decide) (by decide)
    (by decide) (by decide)

end LruCache
